import Mathlib

/-!
Shallow embedding of the point-matching and deviation-quantification core of
the repository: class `DataProcessor` of `src/core/data_processor.py`, plus
the per-pair deviation/angle computation of `CADVisualizer.draw_deviation`
in `src/core/visualizer.py`.

Modelling conventions:
* Python floats are idealized as exact numbers.  Coordinates, distances and
  scale parameters are rationals (`ℚ`); quantities that genuinely need a
  square root or `atan2` (deviation magnitudes in millimeters, angles in
  degrees) live in `ℝ`.
* The code compares Euclidean distances (`np.sqrt(...) <= max_distance`,
  `dist < min_dist`).  The matcher is embedded with *squared* distances:
  the threshold test `sqrt(d) <= max_distance` becomes `inRange`, that is
  `0 ≤ max_distance ∧ d ≤ max_distance²` — equivalent for every sign of
  `max_distance`, since a nonnegative square root is at most `max_distance`
  iff `max_distance` is nonnegative and the radicand is at most its
  square — and the running-minimum comparison `dist < min_dist` is squared
  on both sides, faithful by strict monotonicity of squaring on
  nonnegative reals.
* Methods that mutate `self` become state-passing functions
  `DataProcessor → ... → DataProcessor × Bool`, the `Bool` being the
  method's Python return value; the empty-input early returns leave the
  state untouched, exactly as the code returns before any assignment.
-/

/-- Squared Euclidean distance between two planar points.  The code computes
`np.sqrt((x1-x2)**2 + (y1-y2)**2)`; we keep the square (see the header). -/
def dist2 (p q : ℚ × ℚ) : ℚ :=
  (p.1 - q.1) ^ 2 + (p.2 - q.2) ^ 2

/-- State of a `DataProcessor`: the fields read and written by the matching
methods (`design_points`/`design_point_numbers` and the measured
counterparts are filled by the loading code; `matched_points` by the three
matching strategies). -/
structure DataProcessor where
  design_points : List (ℚ × ℚ)
  design_point_numbers : List ℤ
  measured_points : List (ℚ × ℚ)
  measured_point_numbers : List ℤ
  matched_points : List ((ℚ × ℚ) × (ℚ × ℚ))
deriving DecidableEq

/-- `match_by_sequence`: fail (returning the state unchanged) when either
point list is empty or the lengths differ, otherwise store
`list(zip(design_points, measured_points))` and succeed. -/
def DataProcessor.match_by_sequence (s : DataProcessor) : DataProcessor × Bool :=
  if s.design_points = [] ∨ s.measured_points = [] then (s, false)
  else if s.design_points.length ≠ s.measured_points.length then (s, false)
  else ({ s with matched_points := s.design_points.zip s.measured_points }, true)

/-- Lookup in `dict(zip(keys, vals))`: in a Python dict built from a list of
pairs the *last* binding of a key wins, hence the `reverse`.  The default
`(0, 0)` is never reached when the key is known to be present. -/
def pyDictGet (keys : List ℤ) (vals : List (ℚ × ℚ)) (n : ℤ) : ℚ × ℚ :=
  ((((keys.zip vals).reverse.find? fun kv => kv.1 = n).map Prod.snd).getD (0, 0))

/-- The common point numbers of `match_by_point_number`.  The code iterates
a Python hash `set` (`set(design) & set(measured)`), whose order is
unspecified (and the spec leaves it unspecified); we determinize to
first-occurrence order of the design-side numbers. -/
def commonNumbers (dn mn : List ℤ) : List ℤ :=
  dn.dedup.filter fun n => n ∈ mn

/-- `match_by_point_number`: fail on empty point lists or an empty
identifier intersection (state untouched), otherwise store one pair per
common number, looking both sides up in the number → point dicts. -/
def DataProcessor.match_by_point_number (s : DataProcessor) : DataProcessor × Bool :=
  if s.design_points = [] ∨ s.measured_points = [] then (s, false)
  else
    let common := commonNumbers s.design_point_numbers s.measured_point_numbers
    if common = [] then (s, false)
    else
      ({ s with matched_points := common.map fun n =>
          (pyDictGet s.design_point_numbers s.design_points n,
           pyDictGet s.measured_point_numbers s.measured_points n) }, true)

/-- The code's threshold test `dist <= max_distance`, expressed on the
squared distance `d`: a nonnegative square root is at most `max_distance`
iff `max_distance` is nonnegative and `d ≤ max_distance²`.  This is exact
for every sign of `max_distance` (for a negative threshold the test is
unsatisfiable, as in the code, where `dist ≥ 0`). -/
def inRange (md d : ℚ) : Prop :=
  0 ≤ md ∧ d ≤ md ^ 2

instance (md d : ℚ) : Decidable (inRange md d) :=
  inferInstanceAs (Decidable (0 ≤ md ∧ d ≤ md ^ 2))

/-- Inner scan of `match_by_distance` over the measured points from index
`j` upward: skip consumed indices, and replace the running best
`(squared distance, index, point)` exactly when
`dist < min_dist and dist <= max_distance` (the minimum comparison squared
on both sides, the threshold as `inRange`); the Python initial state
`min_dist = float('inf')` is `none`. -/
def findBest (dp : ℚ × ℚ) (md : ℚ) (used : List ℕ) :
    List (ℚ × ℚ) → ℕ → Option (ℚ × ℕ × (ℚ × ℚ)) → Option (ℚ × ℕ × (ℚ × ℚ))
  | [], _, best => best
  | mp :: rest, j, best =>
    if j ∈ used then findBest dp md used rest (j + 1) best
    else
      match best with
      | none =>
        if inRange md (dist2 dp mp) then
          findBest dp md used rest (j + 1) (some (dist2 dp mp, j, mp))
        else findBest dp md used rest (j + 1) none
      | some b =>
        if dist2 dp mp < b.1 ∧ inRange md (dist2 dp mp) then
          findBest dp md used rest (j + 1) (some (dist2 dp mp, j, mp))
        else findBest dp md used rest (j + 1) (some b)

/-- Outer loop of `match_by_distance`: one iteration per design point, in
input order; a successful inner scan emits the pair and consumes the
measured index (`used_measured.add(best_index)`). -/
def matchLoop (measured : List (ℚ × ℚ)) (md : ℚ) :
    List (ℚ × ℚ) → List ℕ → List ((ℚ × ℚ) × (ℚ × ℚ))
  | [], _ => []
  | dp :: rest, used =>
    match findBest dp md used measured 0 none with
    | some (_, j, mp) => (dp, mp) :: matchLoop measured md rest (j :: used)
    | none => matchLoop measured md rest used

/-- `match_by_distance`: fail untouched on empty inputs; otherwise run the
loop, store its result (also when it is empty: the assignment
`self.matched_points = matched` precedes the emptiness check), and succeed
iff at least one pair was produced. -/
def DataProcessor.match_by_distance (s : DataProcessor) (max_distance : ℚ) :
    DataProcessor × Bool :=
  if s.design_points = [] ∨ s.measured_points = [] then (s, false)
  else
    let matched := matchLoop s.measured_points max_distance s.design_points []
    ({ s with matched_points := matched }, !matched.isEmpty)

/-- The matcher loop instrumented with the indices the code manipulates
(`enumerate(self.design_points)` on the design side, `best_index` on the
measured side): each emitted pair keeps both `(index, point)` entries.
`matchLoop` is its pointwise projection (lemma `matchLoop_eq_matchFull`). -/
def matchFull (measured : List (ℚ × ℚ)) (md : ℚ) :
    List (ℕ × (ℚ × ℚ)) → List ℕ → List ((ℕ × (ℚ × ℚ)) × (ℕ × (ℚ × ℚ)))
  | [], _ => []
  | (i, dp) :: rest, used =>
    match findBest dp md used measured 0 none with
    | some (_, j, mp) => ((i, dp), (j, mp)) :: matchFull measured md rest (j :: used)
    | none => matchFull measured md rest used

/-- Modelled from the spec, for comparison with `findBest` (refinement):
"scans all *not-yet-consumed* measured points and selects the one with
minimum Euclidean distance; if that minimum distance is ≤ `max_distance`,
the pair is emitted ... Ties ... resolve to whichever is encountered first
in measured-point order."  The candidate list is the unconsumed
`(index, point)` entries; `find?` picks the first one whose distance is
minimal over all candidates (`isMinOver`, "p attains the minimum
distance among the candidates"); the threshold — `inRange`, the exact
rendering of `≤ max_distance` on squared distances — is then applied to
that minimum. -/
def isMinOver (dp : ℚ × ℚ) (L : List (ℕ × (ℚ × ℚ))) (p : ℕ × (ℚ × ℚ)) : Bool :=
  decide (∀ q ∈ L, dist2 dp p.2 ≤ dist2 dp q.2)

def specBest (dp : ℚ × ℚ) (md : ℚ) (used : List ℕ) (measured : List (ℚ × ℚ)) :
    Option (ℕ × (ℚ × ℚ)) :=
  let cand := measured.enum.filter fun p => p.1 ∉ used
  match cand.find? (isMinOver dp cand) with
  | none => none
  | some p => if inRange md (dist2 dp p.2) then some p else none

/-- Modelled from the spec: the nearest-neighbor run driven by `specBest` —
per design point in input order, emit the selected pair (if any) and mark
its measured index consumed. -/
def specMatchLoop (measured : List (ℚ × ℚ)) (md : ℚ) :
    List (ℚ × ℚ) → List ℕ → List ((ℚ × ℚ) × (ℚ × ℚ))
  | [], _ => []
  | dp :: rest, used =>
    match specBest dp md used measured with
    | some (j, mp) => (dp, mp) :: specMatchLoop measured md rest (j :: used)
    | none => specMatchLoop measured md rest used

/-- Python `max(list)` over a nonempty list of rationals (`0` on `[]`,
never reached by the code). -/
def listMaxQ : List ℚ → ℚ
  | [] => 0
  | x :: xs => xs.foldl max x

/-- Python `min(list)` over a nonempty list of rationals. -/
def listMinQ : List ℚ → ℚ
  | [] => 0
  | x :: xs => xs.foldl min x

/-- `calculate_arrow_scale`: the method reads `self.deviations`, passed here
explicitly (the advisor is a pure function of the deviation list and its
parameters).  Mirrors the source line by line: empty list → `avg_scale`;
`min_dev == 0` is replaced by `max_dev * 0.1`; `max_dev == 0` →
`avg_scale`; otherwise the three candidate scales are formed and
`scale_by_avg` is clamped into `[1, 10]` via `max(1.0, min(_, 10.0))`. -/
def calculate_arrow_scale (deviations : List ℚ) (pile_diameter : ℚ)
    (min_scale : ℚ) (avg_scale : ℚ) (max_scale : ℚ) : ℚ :=
  if deviations = [] then avg_scale
  else
    let radius := pile_diameter / 2
    let max_dev := listMaxQ deviations
    let min_dev0 := listMinQ deviations
    let avg_dev := deviations.sum / (deviations.length : ℚ)
    let min_dev := if min_dev0 = 0 then max_dev * (1 / 10) else min_dev0
    if max_dev = 0 then avg_scale
    else
      let target_min_length := radius * min_scale
      let target_avg_length := radius * avg_scale
      let target_max_length := radius * max_scale
      let scale_by_min := target_min_length / min_dev
      let scale_by_avg := target_avg_length / avg_dev
      let scale_by_max := target_max_length / max_dev
      max 1 (min scale_by_avg 10)

/-- Per-pair deviation in millimeters:
`sqrt((mx - dx)**2 + (my - dy)**2) * 1000` (the subtraction order inside
the squares differs between `calculate_statistics` and
`calculate_deviations` in the source, with equal value). -/
noncomputable def pairDeviation (pr : (ℚ × ℚ) × (ℚ × ℚ)) : ℝ :=
  Real.sqrt (((pr.2.1 : ℝ) - (pr.1.1 : ℝ)) ^ 2 + ((pr.2.2 : ℝ) - (pr.1.2 : ℝ)) ^ 2) * 1000

/-- The deviation list built by `calculate_deviations` from the matched
pairs, in input order (the method then stores it on `self.deviations`). -/
noncomputable def computeDeviations (pairs : List ((ℚ × ℚ) × (ℚ × ℚ))) : List ℝ :=
  pairs.map pairDeviation

/-- Python `max(list)` over a nonempty list of reals. -/
noncomputable def listMaxR : List ℝ → ℝ
  | [] => 0
  | x :: xs => xs.foldl max x

/-- Python `min(list)` over a nonempty list of reals. -/
noncomputable def listMinR : List ℝ → ℝ
  | [] => 0
  | x :: xs => xs.foldl min x

/-- The dictionary returned by `calculate_statistics`. -/
structure Statistics where
  total_points : ℕ
  max_deviation : ℝ
  min_deviation : ℝ
  mean_deviation : ℝ
  std_deviation : ℝ
  exceeded_points : ℕ

/-- `calculate_statistics`: `None` when `matched_points` is empty, else the
aggregates over the per-pair deviations; `np.std` is the population
standard deviation and `np.sum(deviations > 30.0)` counts deviations
strictly above the 30 mm tolerance. -/
noncomputable def DataProcessor.calculate_statistics (s : DataProcessor) :
    Option Statistics :=
  if s.matched_points = [] then none
  else
    let devs := s.matched_points.map pairDeviation
    let mean := devs.sum / (devs.length : ℝ)
    some
      { total_points := devs.length
        max_deviation := listMaxR devs
        min_deviation := listMinR devs
        mean_deviation := mean
        std_deviation := Real.sqrt ((devs.map fun x => (x - mean) ^ 2).sum / (devs.length : ℝ))
        exceeded_points := (devs.filter fun x => 30 < x).length }

/-- `math.atan2(y, x)` (C semantics; Python's signed zeros collapse to the
single rational/real zero): the angle of the vector `(x, y)`, in
`(-π, π]`. -/
noncomputable def atan2 (y x : ℝ) : ℝ :=
  if 0 < x then Real.arctan (y / x)
  else if x < 0 then
    (if 0 ≤ y then Real.arctan (y / x) + Real.pi else Real.arctan (y / x) - Real.pi)
  else
    (if 0 < y then Real.pi / 2 else if y < 0 then -(Real.pi / 2) else 0)

/-- The deviation angle drawn by `CADVisualizer.draw_deviation`:
`math.degrees(math.atan2(dy, dx))` with `dx, dy = measured - design`,
then `+ 360` when negative. -/
noncomputable def pairAngle (pr : (ℚ × ℚ) × (ℚ × ℚ)) : ℝ :=
  let dx : ℝ := (pr.2.1 : ℝ) - (pr.1.1 : ℝ)
  let dy : ℝ := (pr.2.2 : ℝ) - (pr.1.2 : ℝ)
  let a := atan2 dy dx * 180 / Real.pi
  if a < 0 then a + 360 else a

/-! ### Proof helpers for the nearest-neighbor matcher -/

/-- Accumulator update of `findBest` for a single candidate `(index, point)`. -/
def stepBest (dp : ℚ × ℚ) (md : ℚ) (c : ℕ × (ℚ × ℚ))
    (best : Option (ℚ × ℕ × (ℚ × ℚ))) : Option (ℚ × ℕ × (ℚ × ℚ)) :=
  match best with
  | none => if inRange md (dist2 dp c.2) then some (dist2 dp c.2, c.1, c.2) else none
  | some b =>
    if dist2 dp c.2 < b.1 ∧ inRange md (dist2 dp c.2) then some (dist2 dp c.2, c.1, c.2)
    else some b

/-- Folding `stepBest` over an explicit candidate list. -/
def bestOf (dp : ℚ × ℚ) (md : ℚ) : List (ℕ × (ℚ × ℚ)) →
    Option (ℚ × ℕ × (ℚ × ℚ)) → Option (ℚ × ℕ × (ℚ × ℚ))
  | [], best => best
  | c :: rest, best => bestOf dp md rest (stepBest dp md c best)

/-- Right-recursive earliest-minimum-within-threshold over a candidate
list; ties keep the earlier candidate. -/
def chooseMin (dp : ℚ × ℚ) (md : ℚ) : List (ℕ × (ℚ × ℚ)) → Option (ℚ × ℕ × (ℚ × ℚ))
  | [] => none
  | c :: rest =>
    match chooseMin dp md rest with
    | none => if inRange md (dist2 dp c.2) then some (dist2 dp c.2, c.1, c.2) else none
    | some b =>
      if inRange md (dist2 dp c.2) ∧ dist2 dp c.2 ≤ b.1 then some (dist2 dp c.2, c.1, c.2)
      else some b

/-- Combine an accumulated best with the best of a remaining list,
preferring the accumulator on ties. -/
def mergeBest : Option (ℚ × ℕ × (ℚ × ℚ)) → Option (ℚ × ℕ × (ℚ × ℚ)) →
    Option (ℚ × ℕ × (ℚ × ℚ))
  | none, b => b
  | some a, none => some a
  | some a, some b => if b.1 < a.1 then some b else some a

theorem findBest_eq_bestOf (dp : ℚ × ℚ) (md : ℚ) (used : List ℕ) :
    ∀ (ms : List (ℚ × ℚ)) (j : ℕ) (best : Option (ℚ × ℕ × (ℚ × ℚ))),
    findBest dp md used ms j best =
      bestOf dp md ((ms.enumFrom j).filter fun p => p.1 ∉ used) best := by
  intro ms
  induction ms with
  | nil => intro j best; cases best <;> rfl
  | cons mp rest ih =>
    intro j best
    by_cases hj : j ∈ used
    · cases best with
      | none => simp [findBest, hj, List.filter_cons, ih]
      | some b => simp [findBest, hj, List.filter_cons, ih]
    · cases best with
      | none =>
        by_cases hd : inRange md (dist2 dp mp) <;>
          simp [findBest, hj, hd, List.filter_cons, bestOf, stepBest, ih]
      | some b =>
        by_cases hd : dist2 dp mp < b.1 ∧ inRange md (dist2 dp mp) <;>
          simp [findBest, hj, hd, List.filter_cons, bestOf, stepBest, ih]

theorem bestOf_eq_mergeBest (dp : ℚ × ℚ) (md : ℚ) :
    ∀ (L : List (ℕ × (ℚ × ℚ))) (best : Option (ℚ × ℕ × (ℚ × ℚ))),
    bestOf dp md L best = mergeBest best (chooseMin dp md L) := by
  intro L
  induction L with
  | nil => intro best; cases best <;> rfl
  | cons c rest ih =>
    intro best
    have hstep : bestOf dp md (c :: rest) best =
        mergeBest (stepBest dp md c best) (chooseMin dp md rest) := ih _
    rw [show bestOf dp md (c :: rest) best = bestOf dp md rest (stepBest dp md c best) from rfl] at *
    rw [hstep]
    cases best with
    | none =>
      by_cases hd : inRange md (dist2 dp c.2)
      · cases hrest : chooseMin dp md rest with
        | none => simp [stepBest, chooseMin, hd, hrest, mergeBest]
        | some b =>
          rcases le_or_lt (dist2 dp c.2) b.1 with hle | hlt
          · simp [stepBest, chooseMin, hd, hrest, mergeBest, hle, not_lt.mpr hle]
          · simp [stepBest, chooseMin, hd, hrest, mergeBest, hlt, not_le.mpr hlt]
      · cases hrest : chooseMin dp md rest with
        | none => simp [stepBest, chooseMin, hd, hrest, mergeBest]
        | some b => simp [stepBest, chooseMin, hd, hrest, mergeBest]
    | some a =>
      by_cases hcond : dist2 dp c.2 < a.1 ∧ inRange md (dist2 dp c.2)
      · cases hrest : chooseMin dp md rest with
        | none => simp [stepBest, chooseMin, hcond, hcond.2, hrest, mergeBest, hcond.1]
        | some b =>
          rcases le_or_lt (dist2 dp c.2) b.1 with hle | hlt
          · simp [stepBest, chooseMin, hcond, hcond.2, hrest, mergeBest, hle,
              not_lt.mpr hle, hcond.1]
          · have hba : b.1 < a.1 := lt_trans hlt hcond.1
            simp [stepBest, chooseMin, hcond, hcond.2, hrest, mergeBest, hlt,
              not_le.mpr hlt, hba]
      · by_cases hd : inRange md (dist2 dp c.2)
        · have haled : a.1 ≤ dist2 dp c.2 := by
            by_contra hcon
            exact hcond ⟨not_le.mp hcon, hd⟩
          cases hrest : chooseMin dp md rest with
          | none =>
            simp [stepBest, chooseMin, hcond, hd, hrest, mergeBest, not_lt.mpr haled]
          | some b =>
            rcases le_or_lt (dist2 dp c.2) b.1 with hle | hlt
            · have hnba : ¬ b.1 < a.1 := not_lt.mpr (le_trans haled hle)
              have hnda : ¬ dist2 dp c.2 < a.1 := not_lt.mpr haled
              simp [stepBest, chooseMin, hcond, hd, hrest, mergeBest, hle, hnba, hnda]
            · simp [stepBest, chooseMin, hcond, hd, hrest, mergeBest, not_le.mpr hlt,
                not_lt.mpr haled]
        · cases hrest : chooseMin dp md rest with
          | none => simp [stepBest, chooseMin, hcond, hd, hrest, mergeBest]
          | some b => simp [stepBest, chooseMin, hcond, hd, hrest, mergeBest]

theorem chooseMin_mem (dp : ℚ × ℚ) (md : ℚ) :
    ∀ (L : List (ℕ × (ℚ × ℚ))) (b : ℚ × ℕ × (ℚ × ℚ)), chooseMin dp md L = some b →
    b.2 ∈ L ∧ b.1 = dist2 dp b.2.2 ∧ inRange md b.1 := by
  intro L
  induction L with
  | nil => intro b h; simp [chooseMin] at h
  | cons c rest ih =>
    intro b h
    cases hrest : chooseMin dp md rest with
    | none =>
      simp only [chooseMin, hrest] at h
      by_cases hd : inRange md (dist2 dp c.2)
      · rw [if_pos hd] at h
        cases h
        exact ⟨by simp, rfl, hd⟩
      · rw [if_neg hd] at h; cases h
    | some b0 =>
      simp only [chooseMin, hrest] at h
      by_cases hcond : inRange md (dist2 dp c.2) ∧ dist2 dp c.2 ≤ b0.1
      · rw [if_pos hcond] at h
        cases h
        exact ⟨by simp, rfl, hcond.1⟩
      · rw [if_neg hcond] at h
        cases h
        obtain ⟨hmem, hdist, hle⟩ := ih _ hrest
        exact ⟨List.mem_cons_of_mem c hmem, hdist, hle⟩

theorem chooseMin_eq_none (dp : ℚ × ℚ) (md : ℚ) :
    ∀ (L : List (ℕ × (ℚ × ℚ))),
    chooseMin dp md L = none ↔ ∀ c ∈ L, ¬ inRange md (dist2 dp c.2) := by
  intro L
  induction L with
  | nil => simp [chooseMin]
  | cons c rest ih =>
    cases hrest : chooseMin dp md rest with
    | none =>
      by_cases hd : inRange md (dist2 dp c.2)
      · simp only [chooseMin, hrest, if_pos hd]
        constructor
        · intro hcon; cases hcon
        · intro hall; exact absurd hd (hall c (List.mem_cons_self c rest))
      · simp only [chooseMin, hrest, if_neg hd]
        constructor
        · intro _ q hq
          rcases List.mem_cons.mp hq with rfl | hq2
          · exact hd
          · exact (ih.mp hrest) q hq2
        · intro _; trivial
    | some b =>
      obtain ⟨hmem, hdist, hle⟩ := chooseMin_mem dp md rest b hrest
      have hnotall : ¬ ∀ q ∈ c :: rest, ¬ inRange md (dist2 dp q.2) := by
        intro hall
        exact hall b.2 (List.mem_cons_of_mem c hmem) (hdist ▸ hle)
      simp only [chooseMin, hrest]
      by_cases hcond : inRange md (dist2 dp c.2) ∧ dist2 dp c.2 ≤ b.1
      · simp only [if_pos hcond]
        exact ⟨fun hcon => Option.noConfusion hcon, fun hall => absurd hall hnotall⟩
      · simp only [if_neg hcond]
        exact ⟨fun hcon => Option.noConfusion hcon, fun hall => absurd hall hnotall⟩

theorem chooseMin_min (dp : ℚ × ℚ) (md : ℚ) :
    ∀ (L : List (ℕ × (ℚ × ℚ))) (b : ℚ × ℕ × (ℚ × ℚ)), chooseMin dp md L = some b →
    ∀ c ∈ L, b.1 ≤ dist2 dp c.2 := by
  intro L
  induction L with
  | nil => intro b h; simp [chooseMin] at h
  | cons c rest ih =>
    intro b h q hq
    cases hrest : chooseMin dp md rest with
    | none =>
      simp only [chooseMin, hrest] at h
      by_cases hd : inRange md (dist2 dp c.2)
      · rw [if_pos hd] at h
        cases h
        rcases List.mem_cons.mp hq with rfl | hq2
        · exact le_refl _
        · have := (chooseMin_eq_none dp md rest).mp hrest q hq2
          exact le_trans hd.2 (le_of_not_le fun hcon => this ⟨hd.1, hcon⟩)
      · rw [if_neg hd] at h; cases h
    | some b0 =>
      simp only [chooseMin, hrest] at h
      by_cases hcond : inRange md (dist2 dp c.2) ∧ dist2 dp c.2 ≤ b0.1
      · rw [if_pos hcond] at h
        cases h
        rcases List.mem_cons.mp hq with rfl | hq2
        · exact le_refl _
        · exact le_trans hcond.2 (ih b0 hrest q hq2)
      · rw [if_neg hcond] at h
        cases h
        rcases List.mem_cons.mp hq with rfl | hq2
        · obtain ⟨_, _, hle⟩ := chooseMin_mem dp md rest _ hrest
          by_cases hd : inRange md (dist2 dp q.2)
          · exact le_of_lt (lt_of_not_le fun hcon => hcond ⟨hd, hcon⟩)
          · exact le_trans hle.2 (le_of_not_le fun hcon => hd ⟨hle.1, hcon⟩)
        · exact ih _ hrest q hq2

theorem chooseMin_earliest (dp : ℚ × ℚ) (md : ℚ) :
    ∀ (L : List (ℕ × (ℚ × ℚ))) (b : ℚ × ℕ × (ℚ × ℚ)), chooseMin dp md L = some b →
    ∃ xs ys, L = xs ++ b.2 :: ys ∧
      ∀ c ∈ xs, ¬ inRange md (dist2 dp c.2) ∨ b.1 < dist2 dp c.2 := by
  intro L
  induction L with
  | nil => intro b h; simp [chooseMin] at h
  | cons c rest ih =>
    intro b h
    cases hrest : chooseMin dp md rest with
    | none =>
      simp only [chooseMin, hrest] at h
      by_cases hd : inRange md (dist2 dp c.2)
      · rw [if_pos hd] at h
        cases h
        exact ⟨[], rest, by simp, by simp⟩
      · rw [if_neg hd] at h; cases h
    | some b0 =>
      simp only [chooseMin, hrest] at h
      by_cases hcond : inRange md (dist2 dp c.2) ∧ dist2 dp c.2 ≤ b0.1
      · rw [if_pos hcond] at h
        cases h
        exact ⟨[], rest, by simp, by simp⟩
      · rw [if_neg hcond] at h
        cases h
        obtain ⟨xs, ys, heq, hxs⟩ := ih _ hrest
        refine ⟨c :: xs, ys, by rw [heq]; rfl, ?_⟩
        intro q hq
        rcases List.mem_cons.mp hq with rfl | hq2
        · by_cases hd : inRange md (dist2 dp q.2)
          · exact Or.inr (lt_of_not_le fun hcon => hcond ⟨hd, hcon⟩)
          · exact Or.inl hd
        · exact hxs q hq2

theorem find?_append_first {α : Type} (P : α → Bool) (xs ys : List α) (a : α)
    (hxs : ∀ q ∈ xs, ¬ P q = true) (ha : P a = true) :
    (xs ++ a :: ys).find? P = some a := by
  rw [List.find?_append, List.find?_eq_none.mpr hxs, Option.none_or]
  exact List.find?_cons_of_pos ys ha

set_option maxHeartbeats 1600000 in
theorem isMinOver_true_iff (dp : ℚ × ℚ) (L : List (ℕ × (ℚ × ℚ))) (p : ℕ × (ℚ × ℚ)) :
    isMinOver dp L p = true ↔ ∀ q ∈ L, dist2 dp p.2 ≤ dist2 dp q.2 := by
  simp [isMinOver]

theorem findMinThresh_eq_chooseMin (dp : ℚ × ℚ) (md : ℚ) (L : List (ℕ × (ℚ × ℚ))) :
    (match L.find? (isMinOver dp L) with
     | none => none
     | some p => if inRange md (dist2 dp p.2) then some p else none) =
      (chooseMin dp md L).map fun b => b.2 := by
  cases hcm : chooseMin dp md L with
  | none =>
    have hall := (chooseMin_eq_none dp md L).mp hcm
    cases hfind : L.find? (isMinOver dp L) with
    | none => simp
    | some p =>
      have hpmem := List.mem_of_find?_eq_some hfind
      have hthr : ¬ inRange md (dist2 dp p.2) := hall p hpmem
      simp [hthr]
  | some b =>
    obtain ⟨hmem, hdist, hle⟩ := chooseMin_mem dp md L b hcm
    have hmin := chooseMin_min dp md L b hcm
    obtain ⟨xs, ys, heq, hxs⟩ := chooseMin_earliest dp md L b hcm
    have hpred : ∀ q ∈ L, dist2 dp b.2.2 ≤ dist2 dp q.2 := fun q hq => hdist ▸ hmin q hq
    have hxsP : ∀ q ∈ xs, ¬ isMinOver dp L q = true := by
      intro q hq
      rw [isMinOver_true_iff]
      push_neg
      refine ⟨b.2, hmem, ?_⟩
      rcases hxs q hq with hq1 | hq2
      · have hq1b : ¬ dist2 dp q.2 ≤ md ^ 2 := fun hcon => hq1 ⟨hle.1, hcon⟩
        calc dist2 dp b.2.2 ≤ md ^ 2 := (hdist ▸ hle).2
          _ < dist2 dp q.2 := not_le.mp hq1b
      · exact hdist ▸ hq2
    have hbP : isMinOver dp L b.2 = true := (isMinOver_true_iff dp L b.2).mpr hpred
    have step := find?_append_first (isMinOver dp L) xs ys b.2 hxsP hbP
    rw [← heq] at step
    rw [step]
    simp only [Option.map_some']
    rw [if_pos (hdist ▸ hle)]

theorem specBest_eq_chooseMin (dp : ℚ × ℚ) (md : ℚ) (used : List ℕ)
    (measured : List (ℚ × ℚ)) :
    specBest dp md used measured =
      (chooseMin dp md (measured.enum.filter fun p => p.1 ∉ used)).map fun b => b.2 := by
  simp only [specBest]
  exact findMinThresh_eq_chooseMin dp md _

theorem findBest_eq_chooseMin (dp : ℚ × ℚ) (md : ℚ) (used : List ℕ)
    (measured : List (ℚ × ℚ)) :
    findBest dp md used measured 0 none =
      chooseMin dp md (measured.enum.filter fun p => p.1 ∉ used) := by
  have h1 := findBest_eq_bestOf dp md used measured 0 none
  have h2 := bestOf_eq_mergeBest dp md
    ((measured.enumFrom 0).filter fun p => p.1 ∉ used) none
  rw [h1, h2]
  rfl

theorem findBest_eq_specBest (dp : ℚ × ℚ) (md : ℚ) (used : List ℕ)
    (measured : List (ℚ × ℚ)) :
    (findBest dp md used measured 0 none).map (fun b => b.2) =
      specBest dp md used measured := by
  rw [findBest_eq_chooseMin, specBest_eq_chooseMin]

theorem findBest_some_props (dp : ℚ × ℚ) (md : ℚ) (used : List ℕ)
    (measured : List (ℚ × ℚ)) (b : ℚ × ℕ × (ℚ × ℚ))
    (h : findBest dp md used measured 0 none = some b) :
    b.2 ∈ measured.enum ∧ b.2.1 ∉ used ∧ b.1 = dist2 dp b.2.2 ∧ inRange md b.1 := by
  rw [findBest_eq_chooseMin] at h
  obtain ⟨hmem, hdist, hle⟩ := chooseMin_mem dp md _ b h
  have hf := List.mem_filter.mp hmem
  refine ⟨hf.1, ?_, hdist, hle⟩
  simpa using hf.2

theorem matchLoop_eq_specMatchLoop (measured : List (ℚ × ℚ)) (md : ℚ) :
    ∀ (design : List (ℚ × ℚ)) (used : List ℕ),
    matchLoop measured md design used = specMatchLoop measured md design used := by
  intro design
  induction design with
  | nil => intro used; rfl
  | cons dp rest ih =>
    intro used
    have hspec := findBest_eq_specBest dp md used measured
    cases hfb : findBest dp md used measured 0 none with
    | none =>
      rw [hfb] at hspec
      simp only [Option.map_none'] at hspec
      simp only [matchLoop, specMatchLoop, hfb, ← hspec]
      exact ih used
    | some b =>
      obtain ⟨d, j, mp⟩ := b
      rw [hfb] at hspec
      simp only [Option.map_some'] at hspec
      simp only [matchLoop, specMatchLoop, hfb, ← hspec]
      exact congrArg _ (ih (j :: used))

theorem matchLoop_eq_matchFull (measured : List (ℚ × ℚ)) (md : ℚ) :
    ∀ (l : List (ℕ × (ℚ × ℚ))) (used : List ℕ),
    matchLoop measured md (l.map Prod.snd) used =
      (matchFull measured md l used).map fun q => (q.1.2, q.2.2) := by
  intro l
  induction l with
  | nil => intro used; rfl
  | cons c rest ih =>
    intro used
    obtain ⟨i, dp⟩ := c
    cases hfb : findBest dp md used measured 0 none with
    | none =>
      simp only [List.map_cons, matchLoop, matchFull, hfb]
      exact ih used
    | some b =>
      obtain ⟨d, j, mp⟩ := b
      simp only [List.map_cons, matchLoop, matchFull, hfb]
      exact congrArg _ (ih (j :: used))

theorem matchFull_fst_sublist (measured : List (ℚ × ℚ)) (md : ℚ) :
    ∀ (l : List (ℕ × (ℚ × ℚ))) (used : List ℕ),
    ((matchFull measured md l used).map fun q => q.1.1).Sublist (l.map Prod.fst) := by
  intro l
  induction l with
  | nil => intro used; simp [matchFull]
  | cons c rest ih =>
    intro used
    obtain ⟨i, dp⟩ := c
    cases hfb : findBest dp md used measured 0 none with
    | none =>
      simp only [matchFull, hfb, List.map_cons]
      exact (ih used).cons _
    | some b =>
      obtain ⟨d, j, mp⟩ := b
      simp only [matchFull, hfb, List.map_cons]
      exact (ih (j :: used)).cons₂ _

theorem matchFull_mem (measured : List (ℚ × ℚ)) (md : ℚ) :
    ∀ (l : List (ℕ × (ℚ × ℚ))) (used : List ℕ),
    ∀ q ∈ matchFull measured md l used, q.1 ∈ l ∧ q.2 ∈ measured.enum := by
  intro l
  induction l with
  | nil => intro used q hq; simp [matchFull] at hq
  | cons c rest ih =>
    intro used q hq
    obtain ⟨i, dp⟩ := c
    cases hfb : findBest dp md used measured 0 none with
    | none =>
      rw [matchFull, hfb] at hq
      obtain ⟨h1, h2⟩ := ih used q hq
      exact ⟨List.mem_cons_of_mem _ h1, h2⟩
    | some b =>
      obtain ⟨d, j, mp⟩ := b
      rw [matchFull, hfb] at hq
      rcases List.mem_cons.mp hq with rfl | hq2
      · have := (findBest_some_props dp md used measured _ hfb).1
        exact ⟨List.mem_cons_self _ _, this⟩
      · obtain ⟨h1, h2⟩ := ih (j :: used) q hq2
        exact ⟨List.mem_cons_of_mem _ h1, h2⟩

theorem matchFull_snd_nodup (measured : List (ℚ × ℚ)) (md : ℚ) :
    ∀ (l : List (ℕ × (ℚ × ℚ))) (used : List ℕ),
    (∀ j ∈ (matchFull measured md l used).map fun q => q.2.1, j ∉ used) ∧
    ((matchFull measured md l used).map fun q => q.2.1).Nodup := by
  intro l
  induction l with
  | nil => intro used; simp [matchFull]
  | cons c rest ih =>
    intro used
    obtain ⟨i, dp⟩ := c
    cases hfb : findBest dp md used measured 0 none with
    | none =>
      simp only [matchFull, hfb]
      exact ih used
    | some b =>
      obtain ⟨d, j, mp⟩ := b
      have hfresh := (findBest_some_props dp md used measured _ hfb).2.1
      obtain ⟨ihfresh, ihnd⟩ := ih (j :: used)
      simp only [matchFull, hfb, List.map_cons]
      constructor
      · intro j2 hj2
        rcases List.mem_cons.mp hj2 with rfl | hj2r
        · exact hfresh
        · exact fun hcon =>
            ihfresh j2 hj2r (List.mem_cons_of_mem _ hcon)
      · refine List.nodup_cons.mpr ⟨?_, ihnd⟩
        intro hcon
        exact ihfresh j hcon (List.mem_cons_self _ _)

theorem foldl_max_le (a : ℚ) : ∀ (xs : List ℚ), a ≤ xs.foldl max a := by
  intro xs
  induction xs generalizing a with
  | nil => exact le_refl a
  | cons y ys ih => exact le_trans (le_max_left a y) (ih (max a y))

theorem mem_le_foldl_max : ∀ (xs : List ℚ) (a : ℚ), ∀ x ∈ xs, x ≤ xs.foldl max a := by
  intro xs
  induction xs with
  | nil => intro a x hx; cases hx
  | cons y ys ih =>
    intro a x hx
    rcases List.mem_cons.mp hx with rfl | hx2
    · exact le_trans (le_max_right a x) (foldl_max_le _ ys)
    · exact ih (max a y) x hx2

theorem foldl_max_mem : ∀ (xs : List ℚ) (a : ℚ), xs.foldl max a = a ∨ xs.foldl max a ∈ xs := by
  intro xs
  induction xs with
  | nil => intro a; exact Or.inl rfl
  | cons y ys ih =>
    intro a
    rcases ih (max a y) with h | h
    · rcases max_choice a y with hc | hc
      · rw [List.foldl_cons, h, hc]; exact Or.inl rfl
      · rw [List.foldl_cons, h, hc]; exact Or.inr (List.mem_cons_self _ _)
    · exact Or.inr (List.mem_cons_of_mem _ h)

theorem le_listMaxQ : ∀ (l : List ℚ), ∀ x ∈ l, x ≤ listMaxQ l := by
  intro l x hx
  cases l with
  | nil => cases hx
  | cons y ys =>
    rcases List.mem_cons.mp hx with rfl | hx2
    · exact foldl_max_le x ys
    · exact mem_le_foldl_max ys y x hx2

theorem listMaxQ_mem : ∀ (l : List ℚ), l ≠ [] → listMaxQ l ∈ l := by
  intro l hl
  cases l with
  | nil => exact absurd rfl hl
  | cons y ys =>
    rcases foldl_max_mem ys y with h | h
    · rw [listMaxQ, h]; exact List.mem_cons_self _ _
    · exact List.mem_cons_of_mem _ h

/-- C1: Nearest-neighbor matching follows the spec's selection rule.  For
each design point in input order the code selects, among the
not-yet-consumed measured points, the first (earliest in measured order)
one attaining the minimum Euclidean distance, emits the pair and consumes
that measured point exactly when the minimum distance is within
`max_distance`, and otherwise skips the design point without failing.
Stated as a refinement: on non-empty inputs, the matched list stored by
`match_by_distance` equals the run of the spec-transcribed loop
`specMatchLoop` (built on `specBest`, which is worded directly from the
spec); the threshold is the exact `inRange` rendering of
`≤ max_distance`, and the equality is stated on the claim's domain
`0 ≤ max_distance` (it also holds for negative thresholds, where both
sides emit nothing). -/
theorem spec_c1_nearest_neighbor_matching (s : DataProcessor) (md : ℚ)
    (hmd : 0 ≤ md) (hd : s.design_points ≠ []) (hm : s.measured_points ≠ []) :
    (s.match_by_distance md).1.matched_points =
      specMatchLoop s.measured_points md s.design_points [] := by
  simp only [DataProcessor.match_by_distance]
  rw [if_neg (by simp [hd, hm])]
  exact matchLoop_eq_specMatchLoop s.measured_points md s.design_points []

/-- Witness for C1: a concrete run with a distance tie — design `(0,0)`
is equidistant (distance 1) from both measured points, and the earlier
measured point wins; the second design point takes the remaining one. -/
theorem spec_c1_witness :
    ((⟨[(0, 0), (1, 0)], [], [(0, 1), (0, -1)], [], []⟩ :
        DataProcessor).match_by_distance 2).1.matched_points =
      specMatchLoop [(0, 1), (0, -1)] 2 [(0, 0), (1, 0)] [] :=
  spec_c1_nearest_neighbor_matching _ 2 (by norm_num)
    (List.cons_ne_nil _ _) (List.cons_ne_nil _ _)

/-- C3: Exclusivity invariant of the nearest-neighbor run.  The emitted
pairs of `matchLoop` (the loop of `match_by_distance`, run from the empty
consumed set) are the pointwise projection of the index-instrumented run
`matchFull` over the enumerated design points, in which the design-side
indices are pairwise distinct, the measured-side (consumed) indices are
pairwise distinct, and every pair joins an actual design entry with an
actual measured entry.  Hence no design point and no measured point
participates in more than one emitted pair. -/
theorem spec_c3_exclusivity (design measured : List (ℚ × ℚ)) (md : ℚ) :
    matchLoop measured md design [] =
      (matchFull measured md design.enum []).map (fun q => (q.1.2, q.2.2)) ∧
    ((matchFull measured md design.enum []).map fun q => q.1.1).Nodup ∧
    ((matchFull measured md design.enum []).map fun q => q.2.1).Nodup ∧
    (∀ q ∈ matchFull measured md design.enum [],
      q.1 ∈ design.enum ∧ q.2 ∈ measured.enum) := by
  refine ⟨?_, ?_, ?_, matchFull_mem measured md design.enum []⟩
  · have h := matchLoop_eq_matchFull measured md design.enum []
    have hsnd : design.enum.map Prod.snd = design := List.enumFrom_map_snd 0 design
    rwa [hsnd] at h
  · exact (matchFull_fst_sublist measured md design.enum []).nodup
      (List.nodup_enum_map_fst design)
  · exact (matchFull_snd_nodup measured md design.enum []).2

/-- C4: Failure semantics of the nearest-neighbor call.  On non-empty
inputs, `match_by_distance` returns `False` exactly when the produced pair
list is empty; the produced pair list is stored on the state, so a caller
distinguishes partial from total success by its length. -/
theorem spec_c4_failure_iff_zero_pairs (s : DataProcessor) (md : ℚ)
    (hd : s.design_points ≠ []) (hm : s.measured_points ≠ []) :
    ((s.match_by_distance md).2 = false ↔
      (s.match_by_distance md).1.matched_points = []) ∧
    (s.match_by_distance md).1.matched_points =
      matchLoop s.measured_points md s.design_points [] := by
  simp only [DataProcessor.match_by_distance]
  rw [if_neg (by simp [hd, hm])]
  simp [List.isEmpty_iff]

/-- Witness for C4: a run in which exactly one of two design points is
matched (partial success): the call returns `True` with one stored pair. -/
theorem spec_c4_witness :
    ((((⟨[(0, 0), (5, 5)], [], [(0, 0)], [], []⟩ :
        DataProcessor).match_by_distance 1).2 = false ↔
      (((⟨[(0, 0), (5, 5)], [], [(0, 0)], [], []⟩ :
        DataProcessor)).match_by_distance 1).1.matched_points = []) ∧
    (((⟨[(0, 0), (5, 5)], [], [(0, 0)], [], []⟩ :
        DataProcessor)).match_by_distance 1).1.matched_points =
      matchLoop [(0, 0)] 1 [(0, 0), (5, 5)] []) :=
  spec_c4_failure_iff_zero_pairs _ 1 (List.cons_ne_nil _ _) (List.cons_ne_nil _ _)

/-- C10: Non-atomic failure of the nearest-neighbor path.  When non-empty
inputs produce zero pairs, `match_by_distance` stores the empty list over
whatever `matched_points` previously held *and then* reports failure —
unlike the empty-input paths of all three strategies and the
length-mismatch path of `match_by_sequence`, which return `False` with the
state untouched. -/
theorem spec_c10_clobbers_state_on_zero_pairs (s : DataProcessor) (md : ℚ)
    (hd : s.design_points ≠ []) (hm : s.measured_points ≠ [])
    (hzero : matchLoop s.measured_points md s.design_points [] = []) :
    s.match_by_distance md = ({ s with matched_points := [] }, false) ∧
    (∀ t : DataProcessor, t.design_points = [] ∨ t.measured_points = [] →
      t.match_by_sequence = (t, false) ∧ t.match_by_point_number = (t, false) ∧
      t.match_by_distance md = (t, false)) ∧
    (∀ t : DataProcessor, t.design_points.length ≠ t.measured_points.length →
      t.match_by_sequence.1 = t) := by
  refine ⟨?_, ?_, ?_⟩
  · simp only [DataProcessor.match_by_distance]
    rw [if_neg (by simp [hd, hm]), hzero]
    rfl
  · intro t ht
    refine ⟨?_, ?_, ?_⟩
    · simp only [DataProcessor.match_by_sequence]
      rw [if_pos ht]
    · simp only [DataProcessor.match_by_point_number]
      rw [if_pos ht]
    · simp only [DataProcessor.match_by_distance]
      rw [if_pos ht]
  · intro t hlen
    by_cases hempty : t.design_points = [] ∨ t.measured_points = []
    · simp only [DataProcessor.match_by_sequence]
      rw [if_pos hempty]
    · simp only [DataProcessor.match_by_sequence]
      rw [if_neg hempty, if_pos hlen]

/-- Witness for C10: a processor holding a stale pair from an earlier run;
the new run matches nothing (the only measured point is far away), returns
`False`, and the stale pair is gone. -/
theorem spec_c10_witness :
    (⟨[(0, 0)], [], [(100, 100)], [], [((1, 1), (2, 2))]⟩ :
        DataProcessor).match_by_distance 1 =
      ({ design_points := [(0, 0)], design_point_numbers := [],
         measured_points := [(100, 100)], measured_point_numbers := [],
         matched_points := [] }, false) :=
  (spec_c10_clobbers_state_on_zero_pairs _ 1
    (List.cons_ne_nil _ _) (List.cons_ne_nil _ _)
    (by norm_num [matchLoop, findBest, dist2, inRange])).1

/-- C9 counterexample: the code performs no validation of non-positive
parameters.  With `max_distance = 0` the nearest-neighbor call proceeds
and even *succeeds* on coincident points (so it does not fail at all, let
alone with an invalid-parameter failure), and `calculate_arrow_scale`
accepts `pile_diameter = -1000`, returning the clamped value `1`. -/
theorem spec_c9_counterexample :
    ((⟨[(0, 0)], [], [(0, 0)], [], []⟩ : DataProcessor).match_by_distance 0).2 = true ∧
    calculate_arrow_scale [10] (-1000) 0 2 3 = 1 := by
  constructor
  · norm_num [DataProcessor.match_by_distance, matchLoop, findBest, dist2, inRange]
  · norm_num [calculate_arrow_scale, listMaxQ, listMinQ, max_def, min_def]

theorem findBest_neg_none (dp : ℚ × ℚ) (md : ℚ) (hmd : md < 0) (used : List ℕ)
    (measured : List (ℚ × ℚ)) :
    findBest dp md used measured 0 none = none := by
  rw [findBest_eq_chooseMin, chooseMin_eq_none]
  intro c _
  exact fun hcon => absurd hcon.1 (not_le.mpr hmd)

theorem matchLoop_neg_nil (measured : List (ℚ × ℚ)) (md : ℚ) (hmd : md < 0) :
    ∀ (design : List (ℚ × ℚ)) (used : List ℕ),
    matchLoop measured md design used = [] := by
  intro design
  induction design with
  | nil => intro used; rfl
  | cons dp rest ih =>
    intro used
    simp only [matchLoop, findBest_neg_none dp md hmd used measured]
    exact ih used

/-- C9 amended: neither operation rejects a non-positive parameter; both
proceed to compute instead of failing with a distinct invalid-parameter
error.  For `max_distance < 0` the threshold `dist <= max_distance` is
unsatisfiable (as in the source, where `dist ≥ 0`), so the matcher still
scans every design point, stores the *empty* pair list — clobbering any
previously stored pairs — and returns the ordinary zero-pairs `False`,
indistinguishable from a no-matches failure; with `max_distance = 0` the
call can even succeed (see the counterexample).  For `pile_diameter ≤ 0`
the scale advisor, on a genuine deviation list (nonnegative, not all
zero), computes and clamps the usual `scale_by_avg` value. -/
theorem spec_c9_no_parameter_validation (s : DataProcessor) (md : ℚ) (hmd : md < 0)
    (hd : s.design_points ≠ []) (hm : s.measured_points ≠ []) :
    s.match_by_distance md = ({ s with matched_points := [] }, false) ∧
    ∀ (devs : List ℚ) (pd m a M : ℚ), pd ≤ 0 → (∀ d ∈ devs, 0 ≤ d) →
      (∃ d0 ∈ devs, d0 ≠ 0) →
      calculate_arrow_scale devs pd m a M =
        max 1 (min ((pd / 2 * a) / (devs.sum / (devs.length : ℚ))) 10) := by
  constructor
  · simp only [DataProcessor.match_by_distance]
    rw [if_neg (by simp [hd, hm]),
      matchLoop_neg_nil s.measured_points md hmd s.design_points []]
    rfl
  · rintro devs pd m a M hpd hnn ⟨d0, hd0, hne⟩
    have h0 : 0 < d0 := lt_of_le_of_ne (hnn d0 hd0) (Ne.symm hne)
    have hmax : listMaxQ devs ≠ 0 :=
      ne_of_gt (lt_of_lt_of_le h0 (le_listMaxQ devs d0 hd0))
    have hdevne : devs ≠ [] := by
      intro hcon; rw [hcon] at hd0; cases hd0
    simp only [calculate_arrow_scale]
    rw [if_neg hdevne, if_neg hmax]

/-- Witness for C9's amended statement: `max_distance = -1` on coincident
points — the call proceeds, stores no pairs and returns `False`, exactly
as the source does there. -/
theorem spec_c9_amended_witness :
    (⟨[(0, 0)], [], [(0, 0)], [], []⟩ : DataProcessor).match_by_distance (-1) =
      ({ design_points := [(0, 0)], design_point_numbers := [],
         measured_points := [(0, 0)], measured_point_numbers := [],
         matched_points := [] }, false) ∧
    ∀ (devs : List ℚ) (pd m a M : ℚ), pd ≤ 0 → (∀ d ∈ devs, 0 ≤ d) →
      (∃ d0 ∈ devs, d0 ≠ 0) →
      calculate_arrow_scale devs pd m a M =
        max 1 (min ((pd / 2 * a) / (devs.sum / (devs.length : ℚ))) 10) :=
  spec_c9_no_parameter_validation _ (-1) (by norm_num)
    (List.cons_ne_nil _ _) (List.cons_ne_nil _ _)

/-- C8: Sequence strategy.  `match_by_sequence` fails (state untouched)
when either point set is empty; fails (state untouched) on a length
mismatch; and otherwise succeeds with exactly
`zip(design_points, measured_points)` stored, the i-th pair joining the
i-th design point with the i-th measured point in design order. -/
theorem spec_c8_sequence_strategy (s : DataProcessor) :
    (s.design_points = [] ∨ s.measured_points = [] →
      s.match_by_sequence = (s, false)) ∧
    (s.design_points ≠ [] → s.measured_points ≠ [] →
      s.design_points.length ≠ s.measured_points.length →
      s.match_by_sequence = (s, false)) ∧
    (s.design_points ≠ [] → s.measured_points ≠ [] →
      s.design_points.length = s.measured_points.length →
      s.match_by_sequence =
        ({ s with matched_points := s.design_points.zip s.measured_points }, true)) := by
  refine ⟨?_, ?_, ?_⟩
  · intro h
    simp only [DataProcessor.match_by_sequence]
    rw [if_pos h]
  · intro h1 h2 hlen
    simp only [DataProcessor.match_by_sequence]
    rw [if_neg (by simp [h1, h2]), if_pos hlen]
  · intro h1 h2 hlen
    simp only [DataProcessor.match_by_sequence]
    rw [if_neg (by simp [h1, h2]), if_neg (by simp [hlen])]

/-- Witness for C8: equal-length inputs are zipped positionally. -/
theorem spec_c8_witness :
    (⟨[(0, 0), (1, 1)], [], [(2, 2), (3, 3)], [], []⟩ :
        DataProcessor).match_by_sequence =
      ({ design_points := [(0, 0), (1, 1)], design_point_numbers := [],
         measured_points := [(2, 2), (3, 3)], measured_point_numbers := [],
         matched_points := [((0, 0), (2, 2)), ((1, 1), (3, 3))] }, true) :=
  (spec_c8_sequence_strategy _).2.2 (List.cons_ne_nil _ _) (List.cons_ne_nil _ _) rfl

/-- C2: Scale advisor.  Over a deviation list (deviation magnitudes are
nonnegative): an empty list returns `avg_scale` unchanged; an all-zero
list returns `avg_scale` unchanged; otherwise the result is
`((pile_diameter / 2) * avg_scale) / mean(deviations)` clamped into
`[1, 10]` — a raw value above 10 yields exactly 10 and one below 1 yields
exactly 1 — and the `min_scale`/`max_scale` parameters (hence the
`scale_by_min`/`scale_by_max` candidates) have no effect on the result. -/
theorem spec_c2_scale_advisor (devs : List ℚ) (pd m a M : ℚ)
    (hnn : ∀ d ∈ devs, 0 ≤ d) :
    (devs = [] → calculate_arrow_scale devs pd m a M = a) ∧
    ((∀ d ∈ devs, d = 0) → calculate_arrow_scale devs pd m a M = a) ∧
    (∀ d0 ∈ devs, d0 ≠ 0 →
      calculate_arrow_scale devs pd m a M =
        max 1 (min ((pd / 2 * a) / (devs.sum / (devs.length : ℚ))) 10) ∧
      (10 < (pd / 2 * a) / (devs.sum / (devs.length : ℚ)) →
        calculate_arrow_scale devs pd m a M = 10) ∧
      ((pd / 2 * a) / (devs.sum / (devs.length : ℚ)) < 1 →
        calculate_arrow_scale devs pd m a M = 1)) ∧
    (∀ m2 M2, calculate_arrow_scale devs pd m a M =
      calculate_arrow_scale devs pd m2 a M2) := by
  refine ⟨?_, ?_, ?_, ?_⟩
  · intro h
    simp [calculate_arrow_scale, h]
  · intro hz
    by_cases hdev : devs = []
    · simp [calculate_arrow_scale, hdev]
    · have hmax : listMaxQ devs = 0 := hz _ (listMaxQ_mem devs hdev)
      simp only [calculate_arrow_scale]
      rw [if_neg hdev, if_pos hmax]
  · intro d0 hd0 hne
    have h0 : 0 < d0 := lt_of_le_of_ne (hnn d0 hd0) (Ne.symm hne)
    have hmax : listMaxQ devs ≠ 0 :=
      ne_of_gt (lt_of_lt_of_le h0 (le_listMaxQ devs d0 hd0))
    have hdevne : devs ≠ [] := by
      intro hcon; rw [hcon] at hd0; cases hd0
    have hmain : calculate_arrow_scale devs pd m a M =
        max 1 (min ((pd / 2 * a) / (devs.sum / (devs.length : ℚ))) 10) := by
      simp only [calculate_arrow_scale]
      rw [if_neg hdevne, if_neg hmax]
    refine ⟨hmain, ?_, ?_⟩
    · intro hraw
      rw [hmain, min_eq_right (le_of_lt hraw)]
      exact max_eq_right (by norm_num)
    · intro hraw
      rw [hmain, min_eq_left (le_of_lt (lt_trans hraw (by norm_num)))]
      exact max_eq_left (le_of_lt hraw)
  · intro m2 M2
    simp only [calculate_arrow_scale]

/-- Witness for C2 at deviations `[30]` mm, pile diameter 1000: the raw
scale `(1000/2)*2/30 = 100/3` exceeds 10 and clamps to exactly 10. -/
theorem spec_c2_witness :
    (([30] : List ℚ) = [] → calculate_arrow_scale [30] 1000 0 2 3 = 2) ∧
    ((∀ d ∈ ([30] : List ℚ), d = 0) → calculate_arrow_scale [30] 1000 0 2 3 = 2) ∧
    (∀ d0 ∈ ([30] : List ℚ), d0 ≠ 0 →
      calculate_arrow_scale [30] 1000 0 2 3 =
        max 1 (min ((1000 / 2 * 2) / (([30] : List ℚ).sum / (([30] : List ℚ).length : ℚ))) 10) ∧
      (10 < (1000 / 2 * 2) / (([30] : List ℚ).sum / (([30] : List ℚ).length : ℚ)) →
        calculate_arrow_scale [30] 1000 0 2 3 = 10) ∧
      ((1000 / 2 * 2) / (([30] : List ℚ).sum / (([30] : List ℚ).length : ℚ)) < 1 →
        calculate_arrow_scale [30] 1000 0 2 3 = 1)) ∧
    (∀ m2 M2, calculate_arrow_scale [30] 1000 0 2 3 =
      calculate_arrow_scale [30] 1000 m2 2 M2) :=
  spec_c2_scale_advisor [30] 1000 0 2 3 (by norm_num)

theorem find?_key_unique (n : ℤ) (p : ℚ × ℚ) :
    ∀ (L : List (ℤ × (ℚ × ℚ))), (L.map Prod.fst).Nodup → (n, p) ∈ L →
    (L.find? fun kv => kv.1 = n) = some (n, p) := by
  intro L
  induction L with
  | nil => intro _ hmem; cases hmem
  | cons h0 rest ih =>
    intro hnd hmem
    rcases List.mem_cons.mp hmem with heq | hmem2
    · rw [← heq]
      exact List.find?_cons_of_pos _ (by simp)
    · by_cases hph : h0.1 = n
      · exfalso
        have hmemfst : n ∈ rest.map Prod.fst :=
          List.mem_map.mpr ⟨(n, p), hmem2, rfl⟩
        rw [List.map_cons] at hnd
        have hnotin := (List.nodup_cons.mp hnd).1
        rw [hph] at hnotin
        exact hnotin hmemfst
      · rw [List.find?_cons_of_neg _ (by simp [hph])]
        rw [List.map_cons] at hnd
        exact ih (List.nodup_cons.mp hnd).2 hmem2

theorem zip_map_fst_sublist : ∀ (keys : List ℤ) (vals : List (ℚ × ℚ)),
    ((keys.zip vals).map Prod.fst).Sublist keys := by
  intro keys
  induction keys with
  | nil => intro vals; simp
  | cons k ks ih =>
    intro vals
    cases vals with
    | nil => simp
    | cons v vs =>
      simp only [List.zip_cons_cons, List.map_cons]
      exact (ih vs).cons₂ k

theorem pyDictGet_eq {keys : List ℤ} {vals : List (ℚ × ℚ)} (hnd : keys.Nodup)
    {n : ℤ} {p : ℚ × ℚ} (hmem : (n, p) ∈ keys.zip vals) :
    pyDictGet keys vals n = p := by
  have hfst : (((keys.zip vals).reverse).map Prod.fst).Nodup := by
    rw [List.map_reverse, List.nodup_reverse]
    exact (zip_map_fst_sublist keys vals).nodup hnd
  have hfind := find?_key_unique n p ((keys.zip vals).reverse) hfst
    (List.mem_reverse.mpr hmem)
  simp only [pyDictGet, hfind, Option.map_some', Option.getD_some]

theorem exists_zip_of_mem : ∀ (keys : List ℤ) (vals : List (ℚ × ℚ)),
    keys.length = vals.length → ∀ n ∈ keys, ∃ p, (n, p) ∈ keys.zip vals := by
  intro keys
  induction keys with
  | nil => intro vals _ n hn; cases hn
  | cons k ks ih =>
    intro vals hlen n hn
    cases vals with
    | nil => cases hlen
    | cons v vs =>
      rcases List.mem_cons.mp hn with rfl | hn2
      · exact ⟨v, List.mem_cons_self _ _⟩
      · obtain ⟨p, hp⟩ := ih vs (by simpa using hlen) n hn2
        exact ⟨p, List.mem_cons_of_mem _ hp⟩

theorem mem_commonNumbers (dn mn : List ℤ) (n : ℤ) :
    n ∈ commonNumbers dn mn ↔ n ∈ dn ∧ n ∈ mn := by
  simp [commonNumbers, List.mem_filter, List.mem_dedup]

theorem commonNumbers_nodup (dn mn : List ℤ) : (commonNumbers dn mn).Nodup :=
  (List.nodup_dedup dn).filter _

theorem commonNumbers_toFinset (dn mn : List ℤ) :
    (commonNumbers dn mn).toFinset = dn.toFinset ∩ mn.toFinset := by
  ext n
  simp [mem_commonNumbers]

theorem commonNumbers_length (dn mn : List ℤ) :
    (commonNumbers dn mn).length = (dn.toFinset ∩ mn.toFinset).card := by
  rw [← List.toFinset_card_of_nodup (commonNumbers_nodup dn mn),
    commonNumbers_toFinset]

theorem commonNumbers_eq_nil_iff (dn mn : List ℤ) :
    commonNumbers dn mn = [] ↔ dn.toFinset ∩ mn.toFinset = ∅ := by
  rw [← commonNumbers_toFinset]
  constructor
  · intro h; rw [h]; simp
  · intro h
    rcases List.eq_nil_or_concat (commonNumbers dn mn) with hnil | ⟨l2, a, hcat⟩
    · exact hnil
    · exfalso
      have : a ∈ (commonNumbers dn mn).toFinset := by
        rw [hcat]; simp
      rw [h] at this
      cases this

/-- C7: Identifier strategy.  On non-empty point sets whose identifier
lists are duplicate-free and aligned with the point lists, the call fails
exactly when the identifier intersection is empty; on success it stores
one pair per common identifier (pair count = cardinality of the
intersection), each pair joining the design point carrying that identifier
with the measured point carrying the same identifier.  (Pair order is the
determinized order of the embedded hash-set iteration and is not part of
the claim.) -/
theorem spec_c7_identifier_strategy (s : DataProcessor)
    (hd : s.design_points ≠ []) (hm : s.measured_points ≠ [])
    (hnd : s.design_point_numbers.Nodup) (hnm : s.measured_point_numbers.Nodup)
    (hld : s.design_point_numbers.length = s.design_points.length)
    (hlm : s.measured_point_numbers.length = s.measured_points.length) :
    ((s.match_by_point_number).2 = false ↔
      s.design_point_numbers.toFinset ∩ s.measured_point_numbers.toFinset = ∅) ∧
    ((s.match_by_point_number).2 = true →
      (s.match_by_point_number).1.matched_points.length =
        (s.design_point_numbers.toFinset ∩ s.measured_point_numbers.toFinset).card ∧
      ∀ n ∈ s.design_point_numbers, n ∈ s.measured_point_numbers →
        ∃ dpt mpt,
          (n, dpt) ∈ s.design_point_numbers.zip s.design_points ∧
          (n, mpt) ∈ s.measured_point_numbers.zip s.measured_points ∧
          (dpt, mpt) ∈ (s.match_by_point_number).1.matched_points) := by
  have hne : ¬ (s.design_points = [] ∨ s.measured_points = []) := by simp [hd, hm]
  by_cases hc : commonNumbers s.design_point_numbers s.measured_point_numbers = []
  · constructor
    · simp only [DataProcessor.match_by_point_number]
      rw [if_neg hne, if_pos hc]
      simpa using (commonNumbers_eq_nil_iff _ _).mp hc
    · simp only [DataProcessor.match_by_point_number]
      rw [if_neg hne, if_pos hc]
      intro hcon
      cases hcon
  · constructor
    · simp only [DataProcessor.match_by_point_number]
      rw [if_neg hne, if_neg hc]
      simp only [Bool.true_eq_false, false_iff]
      intro hcon
      exact hc ((commonNumbers_eq_nil_iff _ _).mpr hcon)
    · intro _
      constructor
      · simp only [DataProcessor.match_by_point_number]
        rw [if_neg hne, if_neg hc]
        simp [commonNumbers_length]
      · intro n hn1 hn2
        have hcommon : n ∈ commonNumbers s.design_point_numbers
            s.measured_point_numbers := (mem_commonNumbers _ _ n).mpr ⟨hn1, hn2⟩
        obtain ⟨dpt, hdpt⟩ := exists_zip_of_mem _ _ hld n hn1
        obtain ⟨mpt, hmpt⟩ := exists_zip_of_mem _ _ hlm n hn2
        refine ⟨dpt, mpt, hdpt, hmpt, ?_⟩
        simp only [DataProcessor.match_by_point_number]
        rw [if_neg hne, if_neg hc]
        simp only [List.mem_map]
        refine ⟨n, hcommon, ?_⟩
        rw [pyDictGet_eq hnd hdpt, pyDictGet_eq hnm hmpt]

/-- Witness for C7: the spec's own example — design identifiers 1,2,3 and
measured identifiers 2,3,4 share exactly two identifiers (2 and 3). -/
theorem spec_c7_witness :
    (((⟨[(1, 1), (2, 2), (3, 3)], [1, 2, 3], [(10, 10), (11, 11), (12, 12)],
        [2, 3, 4], []⟩ : DataProcessor).match_by_point_number).2 = false ↔
      ([1, 2, 3] : List ℤ).toFinset ∩ ([2, 3, 4] : List ℤ).toFinset = ∅) ∧
    (((⟨[(1, 1), (2, 2), (3, 3)], [1, 2, 3], [(10, 10), (11, 11), (12, 12)],
        [2, 3, 4], []⟩ : DataProcessor).match_by_point_number).2 = true →
      ((⟨[(1, 1), (2, 2), (3, 3)], [1, 2, 3], [(10, 10), (11, 11), (12, 12)],
        [2, 3, 4], []⟩ : DataProcessor).match_by_point_number).1.matched_points.length =
        (([1, 2, 3] : List ℤ).toFinset ∩ ([2, 3, 4] : List ℤ).toFinset).card ∧
      ∀ n ∈ ([1, 2, 3] : List ℤ), n ∈ ([2, 3, 4] : List ℤ) →
        ∃ dpt mpt,
          (n, dpt) ∈ ([1, 2, 3] : List ℤ).zip [((1 : ℚ), (1 : ℚ)), (2, 2), (3, 3)] ∧
          (n, mpt) ∈ ([2, 3, 4] : List ℤ).zip [((10 : ℚ), (10 : ℚ)), (11, 11), (12, 12)] ∧
          (dpt, mpt) ∈ ((⟨[(1, 1), (2, 2), (3, 3)], [1, 2, 3],
            [(10, 10), (11, 11), (12, 12)], [2, 3, 4],
            []⟩ : DataProcessor).match_by_point_number).1.matched_points) :=
  spec_c7_identifier_strategy _ (List.cons_ne_nil _ _) (List.cons_ne_nil _ _)
    (by decide) (by decide) rfl rfl

theorem pairDeviation_eval (x y r : ℚ) (hr : 0 ≤ r) (h : x ^ 2 + y ^ 2 = r ^ 2) :
    pairDeviation ((0, 0), (x, y)) = (r : ℝ) * 1000 := by
  have h2 : ((x : ℝ)) ^ 2 + ((y : ℝ)) ^ 2 = ((r : ℝ)) ^ 2 := by exact_mod_cast h
  have hr2 : (0 : ℝ) ≤ (r : ℝ) := by exact_mod_cast hr
  simp only [pairDeviation, Rat.cast_zero, sub_zero]
  rw [h2, Real.sqrt_sq hr2]

/-- C5: Statistics computation.  `calculate_statistics` returns `None`
exactly when the matched-pair set is empty; on the deviation set
`[10, 20, 30]` mm (three matched pairs at distances 0.01, 0.02, 0.03 m) it
returns count 3, max 30, min 10, mean 20, population standard deviation
`sqrt(200/3)` (divide by n = 3, not n - 1), and exceedance count 0
(deviations strictly above 30 mm). -/
theorem spec_c5_statistics :
    (∀ s : DataProcessor, s.calculate_statistics = none ↔ s.matched_points = []) ∧
    (⟨[], [], [], [],
        [((0, 0), (1/100, 0)), ((0, 0), (0, 1/50)), ((0, 0), (3/100, 0))]⟩ :
        DataProcessor).calculate_statistics =
      some { total_points := 3, max_deviation := 30, min_deviation := 10,
             mean_deviation := 20, std_deviation := Real.sqrt (200 / 3),
             exceeded_points := 0 } := by
  constructor
  · intro s
    constructor
    · intro h
      by_cases hm : s.matched_points = []
      · exact hm
      · rw [DataProcessor.calculate_statistics, if_neg hm] at h
        cases h
    · intro hm
      rw [DataProcessor.calculate_statistics, if_pos hm]
  · have h1 : pairDeviation ((0, 0), (1/100, 0)) = 10 := by
      rw [pairDeviation_eval (1/100) 0 (1/100) (by norm_num) (by norm_num)]
      norm_num
    have h2 : pairDeviation ((0, 0), (0, 1/50)) = 20 := by
      rw [pairDeviation_eval 0 (1/50) (1/50) (by norm_num) (by norm_num)]
      norm_num
    have h3 : pairDeviation ((0, 0), (3/100, 0)) = 30 := by
      rw [pairDeviation_eval (3/100) 0 (3/100) (by norm_num) (by norm_num)]
      norm_num
    simp only [DataProcessor.calculate_statistics]
    rw [if_neg (by simp)]
    simp only [List.map_cons, List.map_nil, h1, h2, h3, Option.some.injEq]
    have hmax : listMaxR [10, 20, 30] = 30 := by
      simp only [listMaxR, List.foldl_cons, List.foldl_nil]
      rw [max_eq_right (by norm_num : (10:ℝ) ≤ 20),
        max_eq_right (by norm_num : (20:ℝ) ≤ 30)]
    have hmin : listMinR [10, 20, 30] = 10 := by
      simp only [listMinR, List.foldl_cons, List.foldl_nil]
      rw [min_eq_left (by norm_num : (10:ℝ) ≤ 20),
        min_eq_left (by norm_num : (10:ℝ) ≤ 30)]
    have hfil : List.filter (fun x : ℝ => 30 < x) [10, 20, 30] = [] := by
      rw [List.filter_eq_nil_iff]
      intro a ha
      fin_cases ha <;> simp <;> norm_num
    rw [Statistics.mk.injEq]
    refine ⟨by simp, ?_, ?_, by norm_num, ?_, by rw [hfil]; simp⟩
    · exact hmax
    · exact hmin
    · rw [show Real.sqrt (200 / 3) =
        Real.sqrt ((((10:ℝ) - [10, 20, 30].sum / ([10, 20, 30] : List ℝ).length) ^ 2 +
          (((20:ℝ) - [10, 20, 30].sum / ([10, 20, 30] : List ℝ).length) ^ 2 +
          ((((30:ℝ) - [10, 20, 30].sum / ([10, 20, 30] : List ℝ).length) ^ 2 + 0)))) /
            ([10, 20, 30] : List ℝ).length) from congrArg Real.sqrt (by norm_num)]
      norm_num

theorem atan2_le_pi (y x : ℝ) : atan2 y x ≤ Real.pi := by
  have hpi := Real.pi_pos
  rw [atan2]
  split_ifs with h1 h2 h3 h4 h5
  · have := (Real.arctan_lt_pi_div_two (y / x)).le
    linarith
  · have hyx : y / x ≤ 0 := div_nonpos_iff.mpr (Or.inl ⟨h3, h2.le⟩)
    have hmono : Real.arctan (y / x) ≤ Real.arctan 0 :=
      Real.arctan_strictMono.monotone hyx
    rw [Real.arctan_zero] at hmono
    linarith
  · have := (Real.arctan_lt_pi_div_two (y / x)).le
    linarith
  · linarith
  · linarith
  · linarith

theorem neg_pi_lt_atan2 (y x : ℝ) : -Real.pi < atan2 y x := by
  have hpi := Real.pi_pos
  rw [atan2]
  split_ifs with h1 h2 h3 h4 h5
  · have := Real.neg_pi_div_two_lt_arctan (y / x)
    linarith
  · have := Real.neg_pi_div_two_lt_arctan (y / x)
    linarith
  · have hyx : 0 < y / x := div_pos_of_neg_of_neg (not_le.mp h3) h2
    have hmono : Real.arctan 0 < Real.arctan (y / x) := Real.arctan_strictMono hyx
    rw [Real.arctan_zero] at hmono
    linarith
  · linarith
  · linarith
  · linarith

theorem pairAngle_mem_Ico (pr : (ℚ × ℚ) × (ℚ × ℚ)) :
    0 ≤ pairAngle pr ∧ pairAngle pr < 360 := by
  have hpi := Real.pi_pos
  have h1 := atan2_le_pi ((pr.2.2 : ℝ) - (pr.1.2 : ℝ)) ((pr.2.1 : ℝ) - (pr.1.1 : ℝ))
  have h2 := neg_pi_lt_atan2 ((pr.2.2 : ℝ) - (pr.1.2 : ℝ)) ((pr.2.1 : ℝ) - (pr.1.1 : ℝ))
  have hdegle : atan2 ((pr.2.2 : ℝ) - (pr.1.2 : ℝ)) ((pr.2.1 : ℝ) - (pr.1.1 : ℝ)) *
      180 / Real.pi ≤ 180 := by
    rw [div_le_iff₀ hpi]
    nlinarith
  have hdeggt : (-180 : ℝ) < atan2 ((pr.2.2 : ℝ) - (pr.1.2 : ℝ))
      ((pr.2.1 : ℝ) - (pr.1.1 : ℝ)) * 180 / Real.pi := by
    rw [lt_div_iff₀ hpi]
    nlinarith
  simp only [pairAngle]
  split_ifs with h
  · constructor <;> linarith
  · exact ⟨not_lt.mp h, by linarith⟩

theorem arctan_four_thirds_eq :
    Real.arctan (4 / 3) = Real.pi / 4 + Real.arctan (1 / 7) := by
  have h := @Real.arctan_add 1 (1 / 7) (by norm_num)
  rw [Real.arctan_one] at h
  rw [show ((1 : ℝ) + 1 / 7) / (1 - 1 * (1 / 7)) = 4 / 3 by norm_num] at h
  linarith

theorem arctan_one_seventh_gt : (0.1418 : ℝ) < Real.arctan (1 / 7) := by
  have hpi := Real.pi_gt_d6
  have hc0 : (0 : ℝ) ≤ 0.1418 := by norm_num
  have habs : |(0.1418 : ℝ)| ≤ 1 := by
    rw [abs_of_nonneg hc0]; norm_num
  have hs := (abs_le.mp (Real.sin_bound habs)).2
  have hcb := (abs_le.mp (Real.cos_bound habs)).1
  rw [abs_of_nonneg hc0] at hs hcb
  have hcos : 0 < Real.cos 0.1418 := Real.cos_pos_of_le_one habs
  have htan : Real.tan 0.1418 < 1 / 7 := by
    rw [Real.tan_eq_sin_div_cos, div_lt_iff₀ hcos]
    nlinarith [hs, hcb]
  have heq := @Real.arctan_tan (0.1418 : ℝ) (by linarith) (by linarith)
  calc (0.1418 : ℝ) = Real.arctan (Real.tan 0.1418) := heq.symm
    _ < Real.arctan (1 / 7) := Real.arctan_strictMono htan

theorem arctan_one_seventh_lt : Real.arctan (1 / 7) < 0.142 := by
  have hpi := Real.pi_gt_d6
  have hc0 : (0 : ℝ) ≤ 0.142 := by norm_num
  have habs : |(0.142 : ℝ)| ≤ 1 := by
    rw [abs_of_nonneg hc0]; norm_num
  have hs := (abs_le.mp (Real.sin_bound habs)).1
  have hcb := (abs_le.mp (Real.cos_bound habs)).2
  rw [abs_of_nonneg hc0] at hs hcb
  have hcos : 0 < Real.cos 0.142 := Real.cos_pos_of_le_one habs
  have htan : (1 / 7 : ℝ) < Real.tan 0.142 := by
    rw [Real.tan_eq_sin_div_cos, lt_div_iff₀ hcos]
    nlinarith [hs, hcb]
  have heq := @Real.arctan_tan (0.142 : ℝ) (by linarith) (by linarith)
  calc Real.arctan (1 / 7) < Real.arctan (Real.tan 0.142) :=
      Real.arctan_strictMono htan
    _ = 0.142 := heq

theorem arctan_four_thirds_deg_nonneg :
    (0 : ℝ) ≤ Real.arctan (4 / 3) * 180 / Real.pi := by
  have hpi := Real.pi_pos
  have h1 : Real.arctan 0 < Real.arctan (4 / 3) :=
    Real.arctan_strictMono (by norm_num)
  rw [Real.arctan_zero] at h1
  positivity

theorem pairAngle_concrete :
    pairAngle ((0, 0), (3/1000, 4/1000)) = Real.arctan (4 / 3) * 180 / Real.pi := by
  have hnn := arctan_four_thirds_deg_nonneg
  norm_num [pairAngle, atan2, not_lt.mpr hnn]

theorem pairAngle_concrete_gt :
    (53.12 : ℝ) < pairAngle ((0, 0), (3/1000, 4/1000)) := by
  rw [pairAngle_concrete, arctan_four_thirds_eq]
  have hu1 := arctan_one_seventh_gt
  have hpiu := Real.pi_lt_d6
  have hpi := Real.pi_pos
  rw [lt_div_iff₀ hpi]
  nlinarith

theorem pairAngle_concrete_lt :
    pairAngle ((0, 0), (3/1000, 4/1000)) < 53.14 := by
  rw [pairAngle_concrete, arctan_four_thirds_eq]
  have hu2 := arctan_one_seventh_lt
  have hpil := Real.pi_gt_d6
  have hpi := Real.pi_pos
  rw [div_lt_iff₀ hpi]
  nlinarith

/-- C6: Per-pair deviation and angle.  The deviation list built by
`calculate_deviations` carries, at each index of the matched-pair list in
input order, exactly `sqrt((mx-dx)² + (my-dy)²) * 1000` millimeters; the
angle drawn for a pair (`atan2(dy, dx)` in degrees, plus 360 when
negative) always lies in `[0, 360)`; and for design `(0,0)` with measured
`(0.003, 0.004)` the deviation is exactly 5 mm and the angle lies in
`(53.12, 53.14)`, i.e. is approximately 53.13 degrees. -/
theorem spec_c6_deviation_and_angle :
    (∀ (pairs : List ((ℚ × ℚ) × (ℚ × ℚ))) (i : ℕ), i < pairs.length →
      (computeDeviations pairs).getD i 0 = pairDeviation (pairs.getD i ((0, 0), (0, 0)))) ∧
    (∀ pr, 0 ≤ pairAngle pr ∧ pairAngle pr < 360) ∧
    pairDeviation ((0, 0), (3/1000, 4/1000)) = 5 ∧
    53.12 < pairAngle ((0, 0), (3/1000, 4/1000)) ∧
    pairAngle ((0, 0), (3/1000, 4/1000)) < 53.14 := by
  refine ⟨?_, pairAngle_mem_Ico, ?_, pairAngle_concrete_gt, pairAngle_concrete_lt⟩
  · intro pairs i hi
    simp only [computeDeviations]
    rw [List.getD_eq_getElem?_getD, List.getElem?_map,
      List.getD_eq_getElem?_getD, List.getElem?_eq_getElem hi]
    simp
  · rw [pairDeviation_eval (3/1000) (4/1000) (5/1000) (by norm_num) (by norm_num)]
    norm_num

/-- Witness for C6 at the one-pair list holding the 3-4-5 example. -/
theorem spec_c6_witness :
    (computeDeviations [((0, 0), (3/1000, 4/1000))]).getD 0 0 =
      pairDeviation (([((0, 0), (3/1000, 4/1000))] :
        List ((ℚ × ℚ) × (ℚ × ℚ))).getD 0 ((0, 0), (0, 0))) ∧
    (0 ≤ pairAngle ((0, 0), (3/1000, 4/1000)) ∧
      pairAngle ((0, 0), (3/1000, 4/1000)) < 360) :=
  ⟨spec_c6_deviation_and_angle.1 [((0, 0), (3/1000, 4/1000))] 0 (by norm_num),
   spec_c6_deviation_and_angle.2.1 ((0, 0), (3/1000, 4/1000))⟩
